import Mathlib

/-!
# ICS-721 class traces (`modules/apps/nft-transfer`)

A shallow embedding of `types/trace.go` and `keeper/trace.go`.

* A Go `string` is an immutable sequence of bytes; `len`, slicing, `strings.Split`,
  `strings.HasPrefix` all work on bytes.  It is modelled as `List Byte`.
* A Go run-time panic (slice bounds out of range, `Must...` helpers) is modelled by the
  result `none` of an `Option`.
* The key-value store below the keeper is a finite map from keys to values; the keeper
  methods pass the store explicitly and hand back the store they leave behind.
* `crypto/sha256` and the codec are collaborators outside the module and are parameters.
-/

namespace NftTransfer

/-! ## Bytes and strings -/

/-- One byte. -/
abbrev Byte := Fin 256

/-- A Go byte slice. -/
abbrev Bytes := List Byte

/-- A Go string: its bytes. -/
abbrev GoString := List Byte

/-- The bytes of a string literal (Go source text is UTF-8). -/
def str (s : String) : GoString :=
  (s.toList.flatMap String.utf8EncodeChar).map (fun b => b.val)

/-- The separator byte `'/'`. -/
def slash : Byte := 47

/-- Go `strings.Split(s, sep)` for a one-byte separator: the pieces of `s` between
occurrences of `sep`; always at least one piece. -/
def Split (s : GoString) (sep : Byte) : List GoString :=
  match s with
  | [] => [[]]
  | c :: cs =>
    if c = sep then [] :: Split cs sep
    else
      match Split cs sep with
      | [] => [[c]]
      | seg :: rest => (c :: seg) :: rest

/-- Go `strings.Join(elems, sep)`. -/
def Join (elems : List GoString) (sep : GoString) : GoString :=
  match elems with
  | [] => []
  | [a] => a
  | a :: b :: rest => a ++ sep ++ Join (b :: rest) sep

/-- Go `strings.HasPrefix(s, p)`: `len(s) >= len(p) && s[:len(p)] == p`. -/
def HasPrefix (s p : GoString) : Bool :=
  decide (p.length ≤ s.length) && decide (s.take p.length = p)

/-- Go slice expression `s[n:]`; out of range panics. -/
def sliceFrom (s : GoString) (n : Nat) : Option GoString :=
  if n ≤ s.length then some (s.drop n) else none

/-- Go slice expression `s[:n]`; out of range panics. -/
def sliceTo (s : GoString) (n : Nat) : Option GoString :=
  if n ≤ s.length then some (s.take n) else none

/-! ## Library functions the module calls -/

/-- The digit table of `fmt` for the verb `%X`. -/
def upperhex : GoString := str "0123456789ABCDEF"

/-- The hex digit written for a nibble: `upperhex[i]`. -/
def hexDigit (i : Fin 16) : Byte := upperhex.getD i.val 0

/-- The text of a `tmbytes.HexBytes` under `%s`: `HexBytes.Format` writes the bytes with
`%X`, two upper-case hex digits for each byte. -/
def HexBytes.Format (bz : Bytes) : GoString :=
  bz.flatMap (fun c => [hexDigit ⟨c.val / 16, by omega⟩, hexDigit ⟨c.val % 16, by omega⟩])

/-- Errors the functions of the module return. -/
inductive Error where
  /-- `hex.InvalidByteError`: a byte that is no hex digit. -/
  | InvalidByteError (b : Byte)
  /-- `hex.ErrLength`: an odd number of hex digits. -/
  | ErrLength
  /-- The error of `tmtypes.ValidateHash`: "expected size to be 32 bytes, got n bytes". -/
  | HashSize (got : Nat)
  /-- `sdkerrors.Wrap(types.ErrInvalidClassID, err.Error())`. -/
  | ErrInvalidClassID (cause : Error)
  /-- `sdkerrors.Wrap(types.ErrTraceNotFound, hexHash)`. -/
  | ErrTraceNotFound (hexHash : GoString)
  deriving DecidableEq, Repr

deriving instance DecidableEq for Except

/-- The value of one hex digit (`encoding/hex`): `0-9`, `a-f`, `A-F`. -/
def fromHexChar (c : Byte) : Option (Fin 16) :=
  if h : 48 ≤ c.val ∧ c.val ≤ 57 then some ⟨c.val - 48, by omega⟩
  else if h : 97 ≤ c.val ∧ c.val ≤ 102 then some ⟨c.val - 97 + 10, by omega⟩
  else if h : 65 ≤ c.val ∧ c.val ≤ 70 then some ⟨c.val - 65 + 10, by omega⟩
  else none

/-- Go `hex.DecodeString`: two digits make one byte, read from the left; the first byte
that is no hex digit is reported, and an odd length is reported after its last byte was
checked. -/
def hexDecodeString (s : GoString) : Except Error Bytes :=
  match s with
  | [] => .ok []
  | [p] =>
    match fromHexChar p with
    | none => .error (.InvalidByteError p)
    | some _ => .error .ErrLength
  | p :: q :: rest =>
    match fromHexChar p with
    | none => .error (.InvalidByteError p)
    | some a =>
      match fromHexChar q with
      | none => .error (.InvalidByteError q)
      | some b =>
        match hexDecodeString rest with
        | .error e => .error e
        | .ok bs => .ok (⟨a.val * 16 + b.val, by omega⟩ :: bs)

/-- The size of a hash, `tmhash.Size`. -/
def tmhashSize : Nat := 32

/-- Tendermint `types.ValidateHash`: an error when the hash is not empty and its size is
not `tmhash.Size`. -/
def ValidateHash (h : Bytes) : Option Error :=
  if 0 < h.length ∧ h.length ≠ tmhashSize then some (.HashSize h.length) else none

/-- The hash function `crypto/sha256`, a collaborator of the module: `Sum256` maps a byte
slice to a `[32]byte`. -/
structure Sha256 where
  Sum256 : Bytes → Bytes
  size : ∀ data, (Sum256 data).length = 32

/-! ## `types/trace.go` -/

/-- The `ClassTrace` message: the trace path and the base class id. -/
structure ClassTrace where
  Path : GoString
  BaseClassId : GoString
  deriving DecidableEq, Repr

/-- Modelled from the spec: the constant `ClassPrefix` of `types/keys.go`, which is not among
the source files; the prefix token is `"ibc"` (the class prefix is "by default `ibc/`"). -/
def ClassPrefix : GoString := str "ibc"

/-- `ParseHexHash` parses a hex hash in string format to bytes and validates it. -/
def ParseHexHash (hexHash : GoString) : Except Error Bytes :=
  match hexDecodeString hexHash with
  | .error err => .error err
  | .ok hash =>
    match ValidateHash hash with
    | some err => .error err
    | none => .ok hash

/-- `GetClassPrefix`: `fmt.Sprintf("%s/%s/", portID, channelID)`. -/
def GetClassPrefix (portID channelID : GoString) : GoString :=
  portID ++ [slash] ++ channelID ++ [slash]

/-- `RemoveClassPrefix`: `classID[len(classPrefix):]`; `none` is the panic of a slice
out of range. -/
def RemoveClassPrefix (portID channelID classID : GoString) : Option GoString :=
  let classPrefix := GetClassPrefix portID channelID
  sliceFrom classID classPrefix.length

/-- `IsAwayFromOrigin`; `none` is the panic of a slice out of range. -/
def IsAwayFromOrigin (sourcePort sourceChannel fullClassPath : GoString) : Option Bool :=
  let prefixClassID := GetClassPrefix sourcePort sourceChannel
  if !HasPrefix fullClassPath prefixClassID then some true
  else
    match sliceTo fullClassPath prefixClassID.length with
    | none => none
    | some lead => some (decide (lead ≠ prefixClassID))

/-- `ParseClassTrace`: split at `"/"`; when the first piece is the whole string it is the
base class id, otherwise the last piece is the base class id and the pieces before it,
joined again, are the path.  (`Split` never returns an empty slice, so `classSplit[0]` and
`classSplit[len(classSplit)-1]` are in range.) -/
def ParseClassTrace (rawClassID : GoString) : ClassTrace :=
  let classSplit := Split rawClassID slash
  if classSplit.head? = some rawClassID then
    { Path := [], BaseClassId := rawClassID }
  else
    { Path := Join classSplit.dropLast [slash]
      BaseClassId := classSplit.getLast?.getD [] }

/-- `ClassTrace.GetPrefix`. -/
def ClassTrace.GetPrefix (ct : ClassTrace) : GoString :=
  ct.Path ++ [slash]

/-- `ClassTrace.GetFullClassPath`. -/
def ClassTrace.GetFullClassPath (ct : ClassTrace) : GoString :=
  if ct.Path = [] then ct.BaseClassId
  else ct.GetPrefix ++ ct.BaseClassId

/-- `ClassTrace.Hash`: `sha256.Sum256([]byte(ct.GetFullClassPath()))`. -/
def ClassTrace.Hash (H : Sha256) (ct : ClassTrace) : Bytes :=
  H.Sum256 ct.GetFullClassPath

/-- `ClassTrace.IBCClassID`: `fmt.Sprintf("%s/%s", ClassPrefix, ct.Hash())` when there is
a trace, else the base class id. -/
def ClassTrace.IBCClassID (H : Sha256) (ct : ClassTrace) : GoString :=
  if ct.Path ≠ [] then ClassPrefix ++ [slash] ++ HexBytes.Format (ct.Hash H)
  else ct.BaseClassId

/-! ## `keeper/trace.go` -/

/-- The class-trace store: the key-value store of the module under `types.ClassTraceKey`,
a finite map from keys to values. -/
abbrev Store := Bytes → Option Bytes

/-- The store with no entry. -/
def Store.empty : Store := fun _ => none

/-- `KVStore.Get`: the value at `key`, `none` (Go `nil`) when there is none. -/
def Store.Get (s : Store) (key : Bytes) : Option Bytes := s key

/-- `KVStore.Has`. -/
def Store.Has (s : Store) (key : Bytes) : Bool := (s key).isSome

/-- `KVStore.Set`. -/
def Store.Set (s : Store) (key value : Bytes) : Store :=
  fun k => if k = key then some value else s k

/-- Modelled from the spec: the keeper with its codec, the serialization collaborator
behind `MustMarshalClassTrace` and `MustUnmarshalClassTrace` (`keeper/encoding.go` is not
among the source files).  `MustUnmarshalClassTrace` panics (`none`) on bytes that do not
decode. -/
structure Keeper where
  MustMarshalClassTrace : ClassTrace → Bytes
  MustUnmarshalClassTrace : Bytes → Option ClassTrace

/-- `Keeper.GetClassTrace`: the trace stored under the hash and `true`, or the zero trace
and `false`; with the store it leaves.  `none` is the panic of `MustUnmarshalClassTrace`. -/
def Keeper.GetClassTrace (k : Keeper) (ctx : Store) (denomTraceHash : Bytes) :
    Option ((ClassTrace × Bool) × Store) :=
  match ctx.Get denomTraceHash with
  | none => some (({ Path := [], BaseClassId := [] }, false), ctx)
  | some bz =>
    match k.MustUnmarshalClassTrace bz with
    | none => none
    | some denomTrace => some ((denomTrace, true), ctx)

/-- `Keeper.ClassPathFromHash`: the returned pair `(string, error)` with the store it
leaves; `none` is a panic. -/
def Keeper.ClassPathFromHash (k : Keeper) (ctx : Store) (classID : GoString) :
    Option ((GoString × Option Error) × Store) :=
  match sliceFrom classID (ClassPrefix ++ [slash]).length with
  | none => none
  | some hexHash =>
    match ParseHexHash hexHash with
    | .error err => some (([], some (.ErrInvalidClassID err)), ctx)
    | .ok hash =>
      match k.GetClassTrace ctx hash with
      | none => none
      | some ((classTrace, found), ctx1) =>
        if !found then some (([], some (.ErrTraceNotFound hexHash)), ctx1)
        else some ((classTrace.GetFullClassPath, none), ctx1)

/-- `Keeper.HasClassTrace`, with the store it leaves. -/
def Keeper.HasClassTrace (_k : Keeper) (ctx : Store) (denomTraceHash : Bytes) :
    Bool × Store :=
  (ctx.Has denomTraceHash, ctx)

/-- `Keeper.SetClassTrace`: the store after `store.Set(denomTrace.Hash(), bz)`. -/
def Keeper.SetClassTrace (k : Keeper) (H : Sha256) (ctx : Store) (denomTrace : ClassTrace) :
    Store :=
  let bz := k.MustMarshalClassTrace denomTrace
  ctx.Set (denomTrace.Hash H) bz

/-- The store after a sequence of `SetClassTrace` calls, first to last. -/
def Keeper.SetClassTraces (k : Keeper) (H : Sha256) (ctx : Store) (traces : List ClassTrace) :
    Store :=
  traces.foldl (k.SetClassTrace H) ctx

/-! ## Predicates of the properties, and instances of the collaborators -/

/-- The well-formed traces of the round-trip property: the path is empty or a sequence of
`port/channel` hops joined by `/` (an even number of pieces, none empty, hence no trailing
`/`); the base class id is any string. -/
def ClassTrace.WellFormed (ct : ClassTrace) : Prop :=
  ct.Path = [] ∨
    ((Split ct.Path slash).length % 2 = 0 ∧ ∀ seg ∈ Split ct.Path slash, seg ≠ [])

instance (ct : ClassTrace) : Decidable ct.WellFormed := by
  unfold ClassTrace.WellFormed
  infer_instance

/-- The invariant of the class-trace store: every value decodes to a trace whose hash is
the key it is stored under. -/
def StoreInvariant (k : Keeper) (H : Sha256) (st : Store) : Prop :=
  ∀ key value, st key = some value →
    ∃ ct, k.MustUnmarshalClassTrace value = some ct ∧ ct.Hash H = key

/-- The two hex digit values of a byte, the high one first. -/
def nibbles (c : Byte) : List (Fin 16) :=
  [⟨c.val / 16, by omega⟩, ⟨c.val % 16, by omega⟩]

/-- An ASCII letter in upper case; every other byte as it is. -/
def toUpperByte (c : Byte) : Byte :=
  if h : 97 ≤ c.val ∧ c.val ≤ 122 then ⟨c.val - 32, by omega⟩ else c

/-- An ASCII letter in lower case; every other byte as it is. -/
def toLowerByte (c : Byte) : Byte :=
  if h : 65 ≤ c.val ∧ c.val ≤ 90 then ⟨c.val + 32, by omega⟩ else c

/-- The upper-cased string (ASCII letters, which are the letters of hex text). -/
def ToUpper (s : GoString) : GoString := s.map toUpperByte

/-- The lower-cased string (ASCII letters, which are the letters of hex text). -/
def ToLower (s : GoString) : GoString := s.map toLowerByte

/-- A hash function for the examples: the input cut or zero-padded to 32 bytes. -/
def demoSha256 : Sha256 where
  Sum256 data := (data ++ List.replicate 32 0).take 32
  size data := by simp

/-- A codec for the examples: the length of the path in one byte, then the path, then the
base class id. -/
def demoKeeper : Keeper where
  MustMarshalClassTrace ct := Fin.ofNat ct.Path.length :: (ct.Path ++ ct.BaseClassId)
  MustUnmarshalClassTrace bz :=
    match bz with
    | [] => none
    | n :: rest =>
      if n.val ≤ rest.length then
        some { Path := rest.take n.val, BaseClassId := rest.drop n.val }
      else none

/-! ## Splitting and joining -/

theorem Split_ne_nil (s : GoString) (sep : Byte) : Split s sep ≠ [] := by
  cases s with
  | nil => simp [Split]
  | cons c cs =>
    unfold Split
    split
    · simp
    · split <;> simp

theorem Split_of_not_mem (sep : Byte) (s : GoString) (h : sep ∉ s) : Split s sep = [s] := by
  induction s with
  | nil => simp [Split]
  | cons c cs ih =>
    have hc : c ≠ sep := fun e => h (by simp [e])
    have hcs : sep ∉ cs := fun e => h (by simp [e])
    simp [Split, hc, ih hcs]

theorem Split_append_sep (sep : Byte) (a b : GoString) :
    Split (a ++ sep :: b) sep = Split a sep ++ Split b sep := by
  induction a with
  | nil => simp [Split]
  | cons c cs ih =>
    by_cases hc : c = sep
    · simp [Split, hc, ih]
    · have hne := Split_ne_nil cs sep
      cases hs : Split cs sep with
      | nil => exact absurd hs hne
      | cons seg rest => simp [Split, hc, ih, hs]

theorem not_mem_of_mem_Split (sep : Byte) (s seg : GoString) (h : seg ∈ Split s sep) :
    sep ∉ seg := by
  induction s generalizing seg with
  | nil =>
    simp [Split] at h
    simp [h]
  | cons c cs ih =>
    by_cases hc : c = sep
    · simp [Split, hc] at h
      rcases h with h | h
      · simp [h]
      · exact ih seg h
    · cases hs : Split cs sep with
      | nil => exact absurd hs (Split_ne_nil cs sep)
      | cons seg1 rest =>
        simp [Split, hc, hs] at h
        rcases h with h | h
        · have h1 : sep ∉ seg1 := ih seg1 (by simp [hs])
          subst h
          intro hm
          rcases List.mem_cons.mp hm with e | e
          · exact hc e.symm
          · exact h1 e
        · exact ih seg (by simp [hs, h])

theorem Join_append_singleton (sep : GoString) (xs : List GoString) (b : GoString)
    (hxs : xs ≠ []) : Join (xs ++ [b]) sep = Join xs sep ++ sep ++ b := by
  induction xs with
  | nil => exact absurd rfl hxs
  | cons x rest ih =>
    cases rest with
    | nil => simp [Join]
    | cons y more =>
      have := ih (by simp)
      simp [Join] at this ⊢
      simp [this]

theorem Join_Split (sep : Byte) (s : GoString) : Join (Split s sep) [sep] = s := by
  induction s with
  | nil => simp [Split, Join]
  | cons c cs ih =>
    by_cases hc : c = sep
    · cases hs : Split cs sep with
      | nil => exact absurd hs (Split_ne_nil cs sep)
      | cons seg rest =>
        rw [hs] at ih
        simp [Split, hc, hs, Join, ih]
    · cases hs : Split cs sep with
      | nil => exact absurd hs (Split_ne_nil cs sep)
      | cons seg rest =>
        rw [hs] at ih
        cases rest with
        | nil =>
          simp [Join] at ih
          simp [Split, hc, hs, Join, ih]
        | cons y more =>
          simp [Join] at ih
          simp [Split, hc, hs, Join, ih]

/-- A string with a separator splits at its last separator. -/
theorem exists_last_sep (sep : Byte) (s : GoString) (h : sep ∈ s) :
    ∃ p b, s = p ++ sep :: b ∧ sep ∉ b := by
  induction s with
  | nil => simp at h
  | cons c cs ih =>
    by_cases hcs : sep ∈ cs
    · obtain ⟨p, b, e, hb⟩ := ih hcs
      exact ⟨c :: p, b, by simp [e], hb⟩
    · have hc : sep = c := by
        rcases List.mem_cons.mp h with e | e
        · exact e
        · exact absurd e hcs
      exact ⟨[], cs, by simp [hc], hcs⟩

/-! ## `ParseClassTrace` -/

theorem ParseClassTrace_of_not_mem (raw : GoString) (h : slash ∉ raw) :
    ParseClassTrace raw = { Path := [], BaseClassId := raw } := by
  simp [ParseClassTrace, Split_of_not_mem slash raw h]

theorem ParseClassTrace_append (p b : GoString) (hb : slash ∉ b) :
    ParseClassTrace (p ++ slash :: b) = { Path := p, BaseClassId := b } := by
  have hsplit : Split (p ++ slash :: b) slash = Split p slash ++ [b] := by
    rw [Split_append_sep, Split_of_not_mem slash b hb]
  have hne := Split_ne_nil p slash
  have hhead : (Split p slash ++ [b]).head? ≠ some (p ++ slash :: b) := by
    cases hs : Split p slash with
    | nil => exact absurd hs hne
    | cons seg rest =>
      have hseg : slash ∉ seg := not_mem_of_mem_Split slash p seg (by simp [hs])
      intro e
      simp at e
      exact hseg (by simp [e])
  unfold ParseClassTrace
  simp only [hsplit]
  rw [if_neg hhead]
  simp [List.dropLast_concat, Join_Split]

theorem ParseClassTrace_base_not_mem (raw : GoString) :
    slash ∉ (ParseClassTrace raw).BaseClassId := by
  by_cases h : slash ∈ raw
  · obtain ⟨p, b, e, hb⟩ := exists_last_sep slash raw h
    rw [e, ParseClassTrace_append p b hb]
    exact hb
  · rw [ParseClassTrace_of_not_mem raw h]
    exact h

theorem GetFullClassPath_of_not_mem (ct : ClassTrace) (h : slash ∉ ct.BaseClassId) :
    ParseClassTrace ct.GetFullClassPath = ct := by
  unfold ClassTrace.GetFullClassPath ClassTrace.GetPrefix
  by_cases hp : ct.Path = []
  · rw [if_pos hp, ParseClassTrace_of_not_mem _ h]
    cases ct
    simp_all
  · rw [if_neg hp, List.append_assoc, List.singleton_append, ParseClassTrace_append _ _ h]

/-- `GetFullClassPath` is one-to-one on traces whose base class id has no `/`. -/
theorem GetFullClassPath_inj (a b : ClassTrace) (ha : slash ∉ a.BaseClassId)
    (hb : slash ∉ b.BaseClassId) (h : a.GetFullClassPath = b.GetFullClassPath) : a = b := by
  rw [← GetFullClassPath_of_not_mem a ha, ← GetFullClassPath_of_not_mem b hb, h]

/-! ## Hex text -/

theorem HexBytes.Format_length (bz : Bytes) : (HexBytes.Format bz).length = 2 * bz.length := by
  induction bz with
  | nil => rfl
  | cons c cs ih =>
    simp only [HexBytes.Format, List.flatMap_cons, List.length_append, List.length_cons,
      List.length_nil] at ih ⊢
    omega

theorem fromHexChar_hexDigit (i : Fin 16) : fromHexChar (hexDigit i) = some i := by
  revert i
  decide

theorem HexBytes.Format_isHex (bz : Bytes) :
    ∀ c ∈ HexBytes.Format bz, (fromHexChar c).isSome = true := by
  intro c hc
  simp only [HexBytes.Format, List.mem_flatMap] at hc
  obtain ⟨b, _, hb⟩ := hc
  simp only [List.mem_cons, List.mem_singleton, List.not_mem_nil, or_false] at hb
  rcases hb with e | e <;> simp [e, fromHexChar_hexDigit]

/-- Induction on a string two bytes at a time, the way `hex.DecodeString` reads it. -/
theorem pairs_induction {P : GoString → Prop} (h0 : P []) (h1 : ∀ p, P [p])
    (h2 : ∀ p q rest, P rest → P (p :: q :: rest)) : ∀ s, P s
  | [] => h0
  | [p] => h1 p
  | p :: q :: rest => h2 p q rest (pairs_induction h0 h1 h2 rest)

theorem byte_of_nibbles (c : Byte) (h : c.val / 16 * 16 + c.val % 16 < 256) :
    (⟨c.val / 16 * 16 + c.val % 16, h⟩ : Byte) = c := by
  apply Fin.ext
  simp only
  omega

theorem hexDecodeString_Format (bz : Bytes) : hexDecodeString (HexBytes.Format bz) = .ok bz := by
  induction bz with
  | nil => rfl
  | cons c cs ih =>
    simp only [HexBytes.Format, List.flatMap_cons, List.cons_append, List.nil_append] at ih ⊢
    simp only [hexDecodeString, fromHexChar_hexDigit, ih, byte_of_nibbles]

/-- `hex.DecodeString` returns `bz` exactly when the digits of the string are the hex digit
values of the bytes of `bz`, in order. -/
theorem hexDecodeString_ok_iff (s : GoString) :
    ∀ bz, hexDecodeString s = .ok bz ↔ s.map fromHexChar = (bz.flatMap nibbles).map some := by
  induction s using pairs_induction with
  | h0 =>
    intro bz
    cases bz <;> simp [hexDecodeString, nibbles]
  | h1 p =>
    intro bz
    cases bz with
    | nil => cases hp : fromHexChar p <;> simp [hexDecodeString, hp]
    | cons c cs => cases hp : fromHexChar p <;> simp [hexDecodeString, hp, nibbles]
  | h2 p q rest ih =>
    intro bz
    cases hp : fromHexChar p with
    | none => cases bz <;> simp [hexDecodeString, hp, nibbles]
    | some a =>
      cases hq : fromHexChar q with
      | none => cases bz <;> simp [hexDecodeString, hp, hq, nibbles]
      | some b =>
        cases hr : hexDecodeString rest with
        | error e =>
          cases bz with
          | nil => simp [hexDecodeString, hp, hq, hr]
          | cons c cs =>
            have h := ih cs
            rw [hr] at h
            simp only [hexDecodeString, hp, hq, hr, List.map_cons, List.flatMap_cons, nibbles,
              List.cons_append, List.nil_append, List.cons.injEq, Option.some.injEq]
            constructor
            · intro habs
              cases habs
            · rintro ⟨_, _, hrest⟩
              have habs := h.mpr (by simpa [nibbles] using hrest)
              cases habs
        | ok bs =>
          have hbs := (ih bs).mp hr
          cases bz with
          | nil => simp [hexDecodeString, hp, hq, hr]
          | cons c cs =>
            simp only [hexDecodeString, hp, hq, hr, List.map_cons, List.flatMap_cons, nibbles,
              List.cons_append, List.nil_append, List.cons.injEq, Option.some.injEq,
              Except.ok.injEq]
            constructor
            · rintro ⟨hc, hcs⟩
              subst hc hcs
              refine ⟨Fin.ext ?_, Fin.ext ?_, by simpa [nibbles] using hbs⟩
              · simp only
                omega
              · simp only
                omega
            · rintro ⟨ha, hb, hrest⟩
              have hcs : hexDecodeString rest = .ok cs := (ih cs).mpr (by simpa [nibbles] using hrest)
              rw [hr] at hcs
              refine ⟨?_, by simpa using hcs⟩
              subst ha hb
              exact byte_of_nibbles c _

theorem flatMap_nibbles_length (bz : Bytes) : (bz.flatMap nibbles).length = 2 * bz.length := by
  induction bz with
  | nil => rfl
  | cons c cs ih =>
    simp only [List.flatMap_cons, List.length_append, List.length_cons, nibbles,
      List.length_nil] at ih ⊢
    omega

theorem hexDecodeString_length (s : GoString) (bz : Bytes) (h : hexDecodeString s = .ok bz) :
    s.length = 2 * bz.length := by
  have := congrArg List.length ((hexDecodeString_ok_iff s bz).mp h)
  rw [List.length_map, List.length_map, flatMap_nibbles_length] at this
  exact this

theorem hexDecodeString_isHex (s : GoString) (bz : Bytes) (h : hexDecodeString s = .ok bz) :
    ∀ c ∈ s, (fromHexChar c).isSome = true := by
  intro c hc
  have hm : fromHexChar c ∈ s.map fromHexChar := List.mem_map_of_mem _ hc
  rw [(hexDecodeString_ok_iff s bz).mp h] at hm
  obtain ⟨d, _, hd⟩ := List.mem_map.mp hm
  rw [← hd]
  rfl

theorem hexDecodeString_exists (s : GoString) :
    s.length % 2 = 0 → (∀ c ∈ s, (fromHexChar c).isSome = true) →
      ∃ bz, hexDecodeString s = .ok bz := by
  induction s using pairs_induction with
  | h0 => exact fun _ _ => ⟨[], rfl⟩
  | h1 p => intro h; simp at h
  | h2 p q rest ih =>
    intro hlen hhex
    obtain ⟨bs, hbs⟩ := ih (by simp at hlen; omega) (fun c hc => hhex c (by simp [hc]))
    obtain ⟨a, ha⟩ := Option.isSome_iff_exists.mp (hhex p (by simp))
    obtain ⟨b, hb⟩ := Option.isSome_iff_exists.mp (hhex q (by simp))
    exact ⟨⟨a.val * 16 + b.val, by omega⟩ :: bs, by simp only [hexDecodeString, ha, hb, hbs]⟩

theorem ParseHexHash_eq_ok_iff (s : GoString) (bz : Bytes) :
    ParseHexHash s = .ok bz ↔
      hexDecodeString s = .ok bz ∧ (bz.length = 0 ∨ bz.length = 32) := by
  unfold ParseHexHash
  cases h : hexDecodeString s with
  | error e => simp
  | ok hash =>
    simp only [ValidateHash, tmhashSize]
    by_cases hv : 0 < hash.length ∧ hash.length ≠ 32
    · rw [if_pos hv]
      simp only [Except.ok.injEq, false_iff, not_and, reduceCtorEq]
      intro e
      subst e
      omega
    · rw [if_neg hv]
      simp only [Except.ok.injEq]
      constructor
      · intro e
        subst e
        exact ⟨rfl, by omega⟩
      · exact fun e => e.1

theorem ParseHexHash_Format (bz : Bytes) (h : bz.length = 32) :
    ParseHexHash (HexBytes.Format bz) = .ok bz :=
  (ParseHexHash_eq_ok_iff _ bz).mpr ⟨hexDecodeString_Format bz, Or.inr h⟩

theorem ParseHexHash_ok_or_error (s : GoString) :
    (∃ bz, ParseHexHash s = .ok bz) ∨ ∃ e, ParseHexHash s = .error e := by
  cases h : ParseHexHash s with
  | error e => exact Or.inr ⟨e, rfl⟩
  | ok bz => exact Or.inl ⟨bz, rfl⟩

/-- The strings `ParseHexHash` accepts: the empty one and those of 64 hex digits. -/
theorem ParseHexHash_accepts_iff (s : GoString) :
    (∃ bz, ParseHexHash s = .ok bz) ↔
      s = [] ∨ (s.length = 64 ∧ ∀ c ∈ s, (fromHexChar c).isSome = true) := by
  constructor
  · rintro ⟨bz, h⟩
    obtain ⟨hd, hl⟩ := (ParseHexHash_eq_ok_iff s bz).mp h
    have hlen := hexDecodeString_length s bz hd
    rcases hl with hl | hl
    · exact Or.inl (List.length_eq_zero.mp (by omega))
    · exact Or.inr ⟨by omega, hexDecodeString_isHex s bz hd⟩
  · rintro (h | ⟨hlen, hhex⟩)
    · subst h
      exact ⟨[], rfl⟩
    · obtain ⟨bz, hd⟩ := hexDecodeString_exists s (by omega) hhex
      have := hexDecodeString_length s bz hd
      exact ⟨bz, (ParseHexHash_eq_ok_iff s bz).mpr ⟨hd, Or.inr (by omega)⟩⟩

set_option maxRecDepth 100000 in
theorem fromHexChar_toUpperByte (c : Byte) : fromHexChar (toUpperByte c) = fromHexChar c := by
  revert c
  decide

set_option maxRecDepth 100000 in
theorem fromHexChar_toLowerByte (c : Byte) : fromHexChar (toLowerByte c) = fromHexChar c := by
  revert c
  decide

/-- A change of the bytes that keeps the value of every hex digit keeps what
`ParseHexHash` accepts and returns. -/
theorem ParseHexHash_map (f : Byte → Byte) (hf : ∀ c, fromHexChar (f c) = fromHexChar c)
    (s : GoString) (bz : Bytes) : ParseHexHash (s.map f) = .ok bz ↔ ParseHexHash s = .ok bz := by
  have hm : (s.map f).map fromHexChar = s.map fromHexChar := by
    rw [List.map_map]
    exact List.map_congr_left (fun c _ => hf c)
  rw [ParseHexHash_eq_ok_iff, ParseHexHash_eq_ok_iff, hexDecodeString_ok_iff,
    hexDecodeString_ok_iff, hm]

/-! ## Prefixes and slices -/

theorem HasPrefix_iff (s p : GoString) : HasPrefix s p = true ↔ ∃ rest, s = p ++ rest := by
  simp only [HasPrefix, Bool.and_eq_true, decide_eq_true_eq]
  constructor
  · rintro ⟨_, ht⟩
    refine ⟨s.drop p.length, ?_⟩
    conv_lhs => rw [← List.take_append_drop p.length s]
    rw [ht]
  · rintro ⟨rest, e⟩
    subst e
    simp

theorem sliceFrom_append (p rest : GoString) : sliceFrom (p ++ rest) p.length = some rest := by
  simp [sliceFrom]

/-! ## The store under `SetClassTrace` -/

theorem SetClassTrace_apply (k : Keeper) (H : Sha256) (st : Store) (ct : ClassTrace)
    (key : Bytes) :
    k.SetClassTrace H st ct key
      = if key = ct.Hash H then some (k.MustMarshalClassTrace ct) else st key := rfl

theorem GetClassTrace_of_stored (k : Keeper) (st : Store) (h bz : Bytes) (ct : ClassTrace)
    (hst : st h = some bz) (hrt : k.MustUnmarshalClassTrace bz = some ct) :
    k.GetClassTrace st h = some ((ct, true), st) := by
  simp [Keeper.GetClassTrace, Store.Get, hst, hrt]

theorem GetClassTrace_store (k : Keeper) (st : Store) (h : Bytes)
    (r : ClassTrace × Bool) (st1 : Store) (hr : k.GetClassTrace st h = some (r, st1)) :
    st1 = st := by
  unfold Keeper.GetClassTrace at hr
  split at hr
  · simp only [Option.some.injEq, Prod.mk.injEq] at hr
    exact hr.2.symm
  · split at hr
    · simp at hr
    · simp only [Option.some.injEq, Prod.mk.injEq] at hr
      exact hr.2.symm

theorem GetClassTrace_total (k : Keeper) (H : Sha256) (st : Store)
    (hinv : StoreInvariant k H st) (h : Bytes) : ∃ r, k.GetClassTrace st h = some (r, st) := by
  cases hst : st h with
  | none =>
    exact ⟨({ Path := [], BaseClassId := [] }, false),
      by simp [Keeper.GetClassTrace, Store.Get, hst]⟩
  | some bz =>
    obtain ⟨ct, hct, _⟩ := hinv h bz hst
    exact ⟨_, GetClassTrace_of_stored k st h bz ct hst hct⟩

theorem ClassPathFromHash_store (k : Keeper) (st : Store) (classID : GoString)
    (r : GoString × Option Error) (st1 : Store)
    (hr : k.ClassPathFromHash st classID = some (r, st1)) : st1 = st := by
  unfold Keeper.ClassPathFromHash at hr
  split at hr
  · simp at hr
  · split at hr
    · simp only [Option.some.injEq, Prod.mk.injEq] at hr
      exact hr.2.symm
    · split at hr
      · simp at hr
      · rename_i classTrace found ctx1 hget
        have := GetClassTrace_store k st _ _ _ hget
        split at hr <;>
          · simp only [Option.some.injEq, Prod.mk.injEq] at hr
            rw [← hr.2, this]

theorem ClassPathFromHash_total (k : Keeper) (H : Sha256) (st : Store)
    (hinv : StoreInvariant k H st) (classID : GoString)
    (hlen : (ClassPrefix ++ [slash]).length ≤ classID.length) :
    ∃ r, k.ClassPathFromHash st classID = some (r, st) := by
  unfold Keeper.ClassPathFromHash
  simp only [sliceFrom, if_pos hlen]
  cases ParseHexHash (List.drop (ClassPrefix ++ [slash]).length classID) with
  | error err => exact ⟨_, rfl⟩
  | ok hash =>
    obtain ⟨⟨ct, found⟩, hget⟩ := GetClassTrace_total k H st hinv hash
    simp only [hget]
    cases found
    · exact ⟨_, rfl⟩
    · exact ⟨_, rfl⟩

theorem SetClassTraces_stored (k : Keeper) (H : Sha256) (later : List ClassTrace) (st : Store)
    (key v : Bytes) (hst : st key = some v)
    (hkeep : ∀ c ∈ later, c.Hash H = key → k.MustMarshalClassTrace c = v) :
    k.SetClassTraces H st later key = some v := by
  induction later generalizing st with
  | nil => simpa [Keeper.SetClassTraces] using hst
  | cons c rest ih =>
    simp only [Keeper.SetClassTraces, List.foldl_cons]
    apply ih
    · rw [SetClassTrace_apply]
      by_cases e : key = c.Hash H
      · rw [if_pos e, hkeep c (by simp) e.symm]
      · rw [if_neg e, hst]
    · intro c1 hc1
      exact hkeep c1 (by simp [hc1])

theorem Has_SetClassTraces (k : Keeper) (H : Sha256) (traces : List ClassTrace) (st : Store)
    (h : Bytes) :
    (k.SetClassTraces H st traces).Has h = true
      ↔ st.Has h = true ∨ ∃ ct ∈ traces, ct.Hash H = h := by
  induction traces generalizing st with
  | nil => simp [Keeper.SetClassTraces]
  | cons c rest ih =>
    simp only [Keeper.SetClassTraces, List.foldl_cons]
    have := ih (k.SetClassTrace H st c)
    simp only [Keeper.SetClassTraces] at this
    rw [this]
    have hset : (k.SetClassTrace H st c).Has h = true ↔ h = c.Hash H ∨ st.Has h = true := by
      simp only [Store.Has, SetClassTrace_apply]
      by_cases e : h = c.Hash H <;> simp [e]
    rw [hset]
    constructor
    · rintro ((e | hs) | ⟨ct, hct, e⟩)
      · exact Or.inr ⟨c, by simp, e.symm⟩
      · exact Or.inl hs
      · exact Or.inr ⟨ct, by simp [hct], e⟩
    · rintro (hs | ⟨ct, hct, e⟩)
      · exact Or.inl (Or.inr hs)
      · rcases List.mem_cons.mp hct with e1 | e1
        · exact Or.inl (Or.inl (by rw [← e, e1]))
        · exact Or.inr ⟨ct, e1, e⟩

/-! ## The properties -/

/-- C1 (as stated, refuted): a well-formed trace, one hop and a base class id with a `/`,
that does not come back from `ParseClassTrace(ct.GetFullClassPath())`: the last piece of the
base class id is taken for the base class id and the rest joins the path. -/
theorem ParseClassTrace_roundtrip_counterexample :
    ClassTrace.WellFormed { Path := str "port-1/channel-1", BaseClassId := str "a/b" } ∧
    ParseClassTrace
        (ClassTrace.GetFullClassPath { Path := str "port-1/channel-1", BaseClassId := str "a/b" })
      = { Path := str "port-1/channel-1/a", BaseClassId := str "b" } ∧
    ParseClassTrace
        (ClassTrace.GetFullClassPath { Path := str "port-1/channel-1", BaseClassId := str "a/b" })
      ≠ { Path := str "port-1/channel-1", BaseClassId := str "a/b" } := by
  decide

/-- C1 (amended): for every trace `ct`, well-formed or not,
`ParseClassTrace(ct.GetFullClassPath()) == ct` exactly when the base class id of `ct` has no
`/`; so the round trip holds for every well-formed trace whose base class id has no `/`. -/
theorem ParseClassTrace_GetFullClassPath_iff (ct : ClassTrace) :
    ParseClassTrace ct.GetFullClassPath = ct ↔ slash ∉ ct.BaseClassId := by
  constructor
  · intro h
    have := ParseClassTrace_base_not_mem ct.GetFullClassPath
    rwa [h] at this
  · exact GetFullClassPath_of_not_mem ct

/-- C2: `ParseClassTrace` splits at the last `/`.  A string without `/` is the base class
id, with the empty path.  A string with a `/` is `Path + "/" + BaseClassId`, where the base
class id is the last piece of the split (so it has no `/`) and the path is the pieces
before it joined with `/`.  The two examples of the source are included. -/
theorem ParseClassTrace_splits_at_last_slash :
    (∀ raw : GoString, slash ∉ raw →
      ParseClassTrace raw = { Path := [], BaseClassId := raw }) ∧
    (∀ raw : GoString, slash ∈ raw →
      raw = (ParseClassTrace raw).Path ++ [slash] ++ (ParseClassTrace raw).BaseClassId ∧
      (Split raw slash).getLast? = some (ParseClassTrace raw).BaseClassId ∧
      (ParseClassTrace raw).Path = Join (Split raw slash).dropLast [slash] ∧
      slash ∉ (ParseClassTrace raw).BaseClassId) ∧
    ParseClassTrace (str "port-1/channel-1/class-1")
      = { Path := str "port-1/channel-1", BaseClassId := str "class-1" } ∧
    ParseClassTrace (str "class-1") = { Path := str "", BaseClassId := str "class-1" } := by
  refine ⟨ParseClassTrace_of_not_mem, ?_, by decide, by decide⟩
  intro raw h
  obtain ⟨p, b, e, hb⟩ := exists_last_sep slash raw h
  subst e
  rw [ParseClassTrace_append p b hb, Split_append_sep, Split_of_not_mem slash b hb]
  refine ⟨by simp, by simp, ?_, hb⟩
  simp [List.dropLast_concat, Join_Split]

/-- C3 (as stated, refuted): two different traces with one full class path, a class whose
own id has the shape of a path and a voucher of one hop; their hashes are equal for every
hash function. -/
theorem Hash_distinct_counterexample :
    ({ Path := str "", BaseClassId := str "nft-transfer/channel-0/kitty" } : ClassTrace)
      ≠ { Path := str "nft-transfer/channel-0", BaseClassId := str "kitty" } ∧
    ∀ H : Sha256,
      ClassTrace.Hash H { Path := str "", BaseClassId := str "nft-transfer/channel-0/kitty" }
        = ClassTrace.Hash H { Path := str "nft-transfer/channel-0", BaseClassId := str "kitty" } := by
  refine ⟨by decide, fun H => ?_⟩
  have e : ClassTrace.GetFullClassPath
        { Path := str "", BaseClassId := str "nft-transfer/channel-0/kitty" }
      = ClassTrace.GetFullClassPath
        { Path := str "nft-transfer/channel-0", BaseClassId := str "kitty" } := by decide
  simp only [ClassTrace.Hash, e]

/-- C3 (amended): the hash of a trace is 32 bytes; equal traces have equal hashes; and two
different traces whose base class ids have no `/` have different hashes, when SHA-256 does
not collide on their two full class paths. -/
theorem Hash_deterministic_and_distinct (H : Sha256) (a b : ClassTrace) :
    (a.Hash H).length = 32 ∧
    (a = b → a.Hash H = b.Hash H) ∧
    (slash ∉ a.BaseClassId → slash ∉ b.BaseClassId →
      (H.Sum256 a.GetFullClassPath = H.Sum256 b.GetFullClassPath →
        a.GetFullClassPath = b.GetFullClassPath) →
      a ≠ b → a.Hash H ≠ b.Hash H) := by
  refine ⟨H.size _, fun e => by rw [e], ?_⟩
  intro ha hb hcf hne hh
  exact hne (GetFullClassPath_inj a b ha hb (hcf hh))

/-- The amended C3 at two vouchers of one class over two channels, with the example hash. -/
theorem Hash_deterministic_and_distinct_witness :
    (ClassTrace.Hash demoSha256
        { Path := str "nft-transfer/channel-0", BaseClassId := str "kitty" }).length = 32 ∧
    ClassTrace.Hash demoSha256 { Path := str "nft-transfer/channel-0", BaseClassId := str "kitty" }
      ≠ ClassTrace.Hash demoSha256
          { Path := str "nft-transfer/channel-1", BaseClassId := str "kitty" } :=
  have h := Hash_deterministic_and_distinct demoSha256
    { Path := str "nft-transfer/channel-0", BaseClassId := str "kitty" }
    { Path := str "nft-transfer/channel-1", BaseClassId := str "kitty" }
  ⟨h.1, h.2.2 (by decide) (by decide) (by decide) (by decide)⟩

/-- C4: the external id.  With a path, `IBCClassID` is `ClassPrefix + "/"` followed by the
hex text of the hash, 64 hex digits; without a path it is the base class id. -/
theorem IBCClassID_law (H : Sha256) (ct : ClassTrace) :
    (ct.Path ≠ [] →
      ct.IBCClassID H = ClassPrefix ++ [slash] ++ HexBytes.Format (ct.Hash H) ∧
      (HexBytes.Format (ct.Hash H)).length = 64 ∧
      ∀ c ∈ HexBytes.Format (ct.Hash H), (fromHexChar c).isSome = true) ∧
    (ct.Path = [] → ct.IBCClassID H = ct.BaseClassId) := by
  refine ⟨fun hp => ⟨?_, ?_, HexBytes.Format_isHex _⟩, fun hp => ?_⟩
  · simp [ClassTrace.IBCClassID, hp]
  · rw [HexBytes.Format_length, ClassTrace.Hash, H.size]
  · simp [ClassTrace.IBCClassID, hp]

/-- C4 at a voucher and at a class of the chain itself, with the example hash. -/
theorem IBCClassID_law_witness :
    ClassTrace.IBCClassID demoSha256 { Path := str "p/c", BaseClassId := str "kitty" }
      = str "ibc/702F632F6B697474790000000000000000000000000000000000000000000000" ∧
    ClassTrace.IBCClassID demoSha256 { Path := str "", BaseClassId := str "kitty" }
      = str "kitty" :=
  have h1 := (IBCClassID_law demoSha256 { Path := str "p/c", BaseClassId := str "kitty" }).1
    (by decide)
  have h2 := (IBCClassID_law demoSha256 { Path := str "", BaseClassId := str "kitty" }).2
    (by decide)
  ⟨h1.1.trans (by decide), h2⟩

/-- C5: the store round trip.  When the codec gives `ct` back from its bytes,
`GetClassTrace(ct.Hash())` right after `SetClassTrace(ct)` returns `(ct, true)`, from every
store, and leaves the store as it is. -/
theorem GetClassTrace_SetClassTrace (k : Keeper) (H : Sha256) (st : Store) (ct : ClassTrace)
    (hrt : k.MustUnmarshalClassTrace (k.MustMarshalClassTrace ct) = some ct) :
    k.GetClassTrace (k.SetClassTrace H st ct) (ct.Hash H)
      = some ((ct, true), k.SetClassTrace H st ct) :=
  GetClassTrace_of_stored k _ _ _ ct (by rw [SetClassTrace_apply, if_pos rfl]) hrt

/-- C5 at a voucher of one hop, with the example codec and hash, from the empty store. -/
theorem GetClassTrace_SetClassTrace_witness :
    demoKeeper.MustUnmarshalClassTrace
        (demoKeeper.MustMarshalClassTrace { Path := str "p/c", BaseClassId := str "kitty" })
      = some { Path := str "p/c", BaseClassId := str "kitty" } ∧
    demoKeeper.GetClassTrace
        (demoKeeper.SetClassTrace demoSha256 Store.empty
          { Path := str "p/c", BaseClassId := str "kitty" })
        (ClassTrace.Hash demoSha256 { Path := str "p/c", BaseClassId := str "kitty" })
      = some (({ Path := str "p/c", BaseClassId := str "kitty" }, true),
          demoKeeper.SetClassTrace demoSha256 Store.empty
            { Path := str "p/c", BaseClassId := str "kitty" }) :=
  ⟨by decide,
    GetClassTrace_SetClassTrace demoKeeper demoSha256 Store.empty
      { Path := str "p/c", BaseClassId := str "kitty" } (by decide)⟩

/-- C6: the invariant of the store, "every value decodes to a trace whose hash is its key".
It holds of the empty store; `SetClassTrace(ct)` keeps it when the codec gives `ct` back
from its bytes; `GetClassTrace`, `HasClassTrace` and `ClassPathFromHash` leave the store as
it is whenever they return, and on a store with the invariant `GetClassTrace` returns for
every hash and `ClassPathFromHash` for every class id long enough to be sliced. -/
theorem StoreInvariant_preserved (k : Keeper) (H : Sha256) :
    StoreInvariant k H Store.empty ∧
    (∀ st ct, k.MustUnmarshalClassTrace (k.MustMarshalClassTrace ct) = some ct →
      StoreInvariant k H st → StoreInvariant k H (k.SetClassTrace H st ct)) ∧
    (∀ st h r st1, k.GetClassTrace st h = some (r, st1) → st1 = st) ∧
    (∀ st h, (k.HasClassTrace st h).2 = st) ∧
    (∀ st classID r st1, k.ClassPathFromHash st classID = some (r, st1) → st1 = st) ∧
    (∀ st, StoreInvariant k H st →
      (∀ h, ∃ r, k.GetClassTrace st h = some (r, st)) ∧
      (∀ classID, (ClassPrefix ++ [slash]).length ≤ classID.length →
        ∃ r, k.ClassPathFromHash st classID = some (r, st))) := by
  refine ⟨?_, ?_, GetClassTrace_store k, fun _ _ => rfl, ClassPathFromHash_store k, ?_⟩
  · intro key value h
    simp [Store.empty] at h
  · intro st ct hrt hinv key value h
    rw [SetClassTrace_apply] at h
    by_cases e : key = ct.Hash H
    · rw [if_pos e] at h
      cases h
      exact ⟨ct, hrt, e.symm⟩
    · rw [if_neg e] at h
      exact hinv key value h
  · intro st hinv
    exact ⟨GetClassTrace_total k H st hinv, ClassPathFromHash_total k H st hinv⟩

/-- C6 with the example codec and hash: the store after one `SetClassTrace` from the empty
store has the invariant, and a `GetClassTrace` on it returns and leaves it as it is. -/
theorem StoreInvariant_preserved_witness :
    StoreInvariant demoKeeper demoSha256
      (demoKeeper.SetClassTrace demoSha256 Store.empty
        { Path := str "p/c", BaseClassId := str "kitty" }) ∧
    ∃ r, demoKeeper.GetClassTrace
        (demoKeeper.SetClassTrace demoSha256 Store.empty
          { Path := str "p/c", BaseClassId := str "kitty" }) [] =
      some (r, demoKeeper.SetClassTrace demoSha256 Store.empty
          { Path := str "p/c", BaseClassId := str "kitty" }) :=
  have h := StoreInvariant_preserved demoKeeper demoSha256
  have hinv := h.2.1 Store.empty { Path := str "p/c", BaseClassId := str "kitty" }
    (by decide) h.1
  ⟨hinv, (h.2.2.2.2.2 _ hinv).1 []⟩

/-- C7 (as stated, refuted): a class whose own id has the shape of a path, and the voucher
of one hop with the same full class path.  They are different traces with one hash, for
every hash function, so the second `SetClassTrace` writes over the first: afterwards
`GetClassTrace` at the hash of the first returns the second. -/
theorem SetClassTrace_overwrites_counterexample :
    ({ Path := str "", BaseClassId := str "nft-transfer/channel-0/kitty" } : ClassTrace)
      ≠ { Path := str "nft-transfer/channel-0", BaseClassId := str "kitty" } ∧
    ClassTrace.GetFullClassPath
        { Path := str "", BaseClassId := str "nft-transfer/channel-0/kitty" }
      = ClassTrace.GetFullClassPath
        { Path := str "nft-transfer/channel-0", BaseClassId := str "kitty" } ∧
    demoKeeper.MustUnmarshalClassTrace (demoKeeper.MustMarshalClassTrace
        { Path := str "", BaseClassId := str "nft-transfer/channel-0/kitty" })
      = some { Path := str "", BaseClassId := str "nft-transfer/channel-0/kitty" } ∧
    demoKeeper.MustUnmarshalClassTrace (demoKeeper.MustMarshalClassTrace
        { Path := str "nft-transfer/channel-0", BaseClassId := str "kitty" })
      = some { Path := str "nft-transfer/channel-0", BaseClassId := str "kitty" } ∧
    (demoKeeper.GetClassTrace
        (demoKeeper.SetClassTraces demoSha256
          (demoKeeper.SetClassTrace demoSha256 Store.empty
            { Path := str "", BaseClassId := str "nft-transfer/channel-0/kitty" })
          [{ Path := str "nft-transfer/channel-0", BaseClassId := str "kitty" }])
        (ClassTrace.Hash demoSha256
          { Path := str "", BaseClassId := str "nft-transfer/channel-0/kitty" })).map Prod.fst
      = some ({ Path := str "nft-transfer/channel-0", BaseClassId := str "kitty" }, true) ∧
    ∀ (k : Keeper) (H : Sha256) (st : Store),
      k.MustUnmarshalClassTrace (k.MustMarshalClassTrace
          { Path := str "nft-transfer/channel-0", BaseClassId := str "kitty" })
        = some { Path := str "nft-transfer/channel-0", BaseClassId := str "kitty" } →
      (k.GetClassTrace
          (k.SetClassTraces H
            (k.SetClassTrace H st
              { Path := str "", BaseClassId := str "nft-transfer/channel-0/kitty" })
            [{ Path := str "nft-transfer/channel-0", BaseClassId := str "kitty" }])
          (ClassTrace.Hash H
            { Path := str "", BaseClassId := str "nft-transfer/channel-0/kitty" })).map Prod.fst
        = some ({ Path := str "nft-transfer/channel-0", BaseClassId := str "kitty" }, true) := by
  have e : ClassTrace.GetFullClassPath
        { Path := str "", BaseClassId := str "nft-transfer/channel-0/kitty" }
      = ClassTrace.GetFullClassPath
        { Path := str "nft-transfer/channel-0", BaseClassId := str "kitty" } := by decide
  refine ⟨by decide, e, by decide, by decide, by decide, ?_⟩
  intro k H st hrt
  have hh : ClassTrace.Hash H
        { Path := str "", BaseClassId := str "nft-transfer/channel-0/kitty" }
      = ClassTrace.Hash H
        { Path := str "nft-transfer/channel-0", BaseClassId := str "kitty" } := by
    simp only [ClassTrace.Hash, e]
  rw [hh]
  simp only [Keeper.SetClassTraces, List.foldl_cons, List.foldl_nil]
  rw [GetClassTrace_of_stored k _ _ _ _ (by rw [SetClassTrace_apply, if_pos rfl]) hrt]
  rfl

/-- C7 (amended): once `SetClassTrace(ct)` has run, after any later sequence of
`SetClassTrace` calls whose traces are `ct` itself or have another full class path than
`ct`, `GetClassTrace(ct.Hash())` still returns `(ct, true)`; the codec gives `ct` back from
its bytes and SHA-256 does not collide on the full class path of `ct` and that of a later
trace.  (Two traces whose base class ids have no `/` and that differ have different full
class paths.) -/
theorem GetClassTrace_after_SetClassTraces (k : Keeper) (H : Sha256) (st : Store)
    (ct : ClassTrace) (later : List ClassTrace)
    (hrt : k.MustUnmarshalClassTrace (k.MustMarshalClassTrace ct) = some ct)
    (hcf : ∀ c ∈ later, H.Sum256 c.GetFullClassPath = H.Sum256 ct.GetFullClassPath →
      c.GetFullClassPath = ct.GetFullClassPath)
    (hpath : ∀ c ∈ later, c.GetFullClassPath = ct.GetFullClassPath → c = ct) :
    k.GetClassTrace (k.SetClassTraces H (k.SetClassTrace H st ct) later) (ct.Hash H)
      = some ((ct, true), k.SetClassTraces H (k.SetClassTrace H st ct) later) := by
  apply GetClassTrace_of_stored k _ _ (k.MustMarshalClassTrace ct) ct _ hrt
  apply SetClassTraces_stored
  · rw [SetClassTrace_apply, if_pos rfl]
  · intro c hc hh
    rw [hpath c hc (hcf c hc hh)]

/-- The amended C7 with the example codec and hash: a voucher is still there after a
voucher over another channel, itself again, and a class of the chain were set. -/
theorem GetClassTrace_after_SetClassTraces_witness :
    demoKeeper.GetClassTrace
        (demoKeeper.SetClassTraces demoSha256
          (demoKeeper.SetClassTrace demoSha256 Store.empty
            { Path := str "p/c", BaseClassId := str "kitty" })
          [{ Path := str "p/d", BaseClassId := str "kitty" },
           { Path := str "p/c", BaseClassId := str "kitty" },
           { Path := str "", BaseClassId := str "doggo" }])
        (ClassTrace.Hash demoSha256 { Path := str "p/c", BaseClassId := str "kitty" })
      = some (({ Path := str "p/c", BaseClassId := str "kitty" }, true),
          demoKeeper.SetClassTraces demoSha256
            (demoKeeper.SetClassTrace demoSha256 Store.empty
              { Path := str "p/c", BaseClassId := str "kitty" })
            [{ Path := str "p/d", BaseClassId := str "kitty" },
             { Path := str "p/c", BaseClassId := str "kitty" },
             { Path := str "", BaseClassId := str "doggo" }]) :=
  GetClassTrace_after_SetClassTraces demoKeeper demoSha256 Store.empty
    { Path := str "p/c", BaseClassId := str "kitty" }
    [{ Path := str "p/d", BaseClassId := str "kitty" },
     { Path := str "p/c", BaseClassId := str "kitty" },
     { Path := str "", BaseClassId := str "doggo" }]
    (by decide) (by decide) (by decide)

/-- C8: existence.  In the store reached from the empty store by a sequence of
`SetClassTrace` calls, `HasClassTrace(h)` is true exactly when a trace of the sequence has
the hash `h`. -/
theorem HasClassTrace_iff (k : Keeper) (H : Sha256) (traces : List ClassTrace) (h : Bytes) :
    (k.HasClassTrace (k.SetClassTraces H Store.empty traces) h).1 = true
      ↔ ∃ ct ∈ traces, ct.Hash H = h := by
  simp only [Keeper.HasClassTrace]
  rw [Has_SetClassTraces]
  simp [Store.Has, Store.empty]

/-- C9: `SetClassTrace` is idempotent: from every store, setting a trace twice leaves the
store that setting it once leaves. -/
theorem SetClassTrace_idempotent (k : Keeper) (H : Sha256) (st : Store) (ct : ClassTrace) :
    k.SetClassTrace H (k.SetClassTrace H st ct) ct = k.SetClassTrace H st ct := by
  funext key
  simp only [SetClassTrace_apply]
  by_cases e : key = ct.Hash H <;> simp [e]

/-- C10 (as stated, refuted): `ClassPathFromHash` does not look at the first four bytes.
The class id `abc/` followed by 64 hex digits does not start with `ibc/`; on the empty
store the error is trace-not-found, not invalid-identifier, and on a store that has the
hash a path is returned.  A class id shorter than the prefix is a slice out of range. -/
theorem ClassPathFromHash_unchecked_counterexample :
    HasPrefix (str "abc/" ++ List.replicate 64 48) (ClassPrefix ++ [slash]) = false ∧
    demoKeeper.ClassPathFromHash Store.empty (str "abc/" ++ List.replicate 64 48)
      = some (([], some (Error.ErrTraceNotFound (List.replicate 64 48))), Store.empty) ∧
    HasPrefix (str "abc/" ++ HexBytes.Format (ClassTrace.Hash demoSha256
        { Path := str "p/c", BaseClassId := str "kitty" })) (ClassPrefix ++ [slash]) = false ∧
    (demoKeeper.ClassPathFromHash
        (demoKeeper.SetClassTrace demoSha256 Store.empty
          { Path := str "p/c", BaseClassId := str "kitty" })
        (str "abc/" ++ HexBytes.Format (ClassTrace.Hash demoSha256
          { Path := str "p/c", BaseClassId := str "kitty" }))).map Prod.fst
      = some (str "p/c/kitty", none) ∧
    demoKeeper.ClassPathFromHash Store.empty (str "ib") = none := by
  refine ⟨by decide, rfl, by decide, by decide, rfl⟩

/-- C10 (amended): `ClassPathFromHash` drops the first `len(ClassPrefix + "/")` bytes of the
class id, whatever they are.  For every class id of at least that length whose remaining
bytes `ParseHexHash` rejects, it returns the empty path and the invalid-identifier error
around that rejection, in every store, and leaves the store as it is. -/
theorem ClassPathFromHash_invalid (k : Keeper) (st : Store) (classID : GoString) (err : Error)
    (hlen : (ClassPrefix ++ [slash]).length ≤ classID.length)
    (hbad : ParseHexHash (classID.drop (ClassPrefix ++ [slash]).length) = .error err) :
    k.ClassPathFromHash st classID = some (([], some (.ErrInvalidClassID err)), st) := by
  unfold Keeper.ClassPathFromHash
  simp only [sliceFrom, if_pos hlen, hbad]

/-- The amended C10 at `hello world`: the bytes after the first four are no hex text. -/
theorem ClassPathFromHash_invalid_witness :
    HasPrefix (str "hello world") (ClassPrefix ++ [slash]) = false ∧
    demoKeeper.ClassPathFromHash Store.empty (str "hello world")
      = some (([], some (.ErrInvalidClassID (.InvalidByteError 111))), Store.empty) :=
  ⟨by decide,
    ClassPathFromHash_invalid demoKeeper Store.empty (str "hello world")
      (.InvalidByteError 111) (by decide) (by decide)⟩

/-- C11: `ClassPathFromHash` on a hash that is not stored.  For every store and every class
id `ClassPrefix + "/" + hexHash` whose `hexHash` `ParseHexHash` accepts (so for every valid
hash of 32 bytes) with no entry under the decoded hash, the result is the empty path and the
trace-not-found error around exactly `hexHash`; the store is left as it is. -/
theorem ClassPathFromHash_not_found (k : Keeper) (st : Store) (hexHash : GoString)
    (hash : Bytes) (hparse : ParseHexHash hexHash = .ok hash) (habsent : st hash = none) :
    k.ClassPathFromHash st (ClassPrefix ++ [slash] ++ hexHash)
      = some (([], some (.ErrTraceNotFound hexHash)), st) := by
  simp only [Keeper.ClassPathFromHash, sliceFrom_append, hparse, Keeper.GetClassTrace,
    Store.Get, habsent]
  rfl

/-- C11 at the hash of 32 zero bytes, on the empty store. -/
theorem ClassPathFromHash_not_found_witness :
    ParseHexHash (List.replicate 64 48) = .ok (List.replicate 32 0) ∧
    demoKeeper.ClassPathFromHash Store.empty (ClassPrefix ++ [slash] ++ List.replicate 64 48)
      = some (([], some (.ErrTraceNotFound (List.replicate 64 48))), Store.empty) :=
  ⟨by decide,
    ClassPathFromHash_not_found demoKeeper Store.empty (List.replicate 64 48)
      (List.replicate 32 0) (by decide) rfl⟩

/-- C12 (as stated, refuted): the empty string is not 64 hex digits, and `ParseHexHash`
accepts it, with no byte: `ValidateHash` lets the empty hash through. -/
theorem ParseHexHash_empty_counterexample :
    (str "").length ≠ 64 ∧ ParseHexHash (str "") = .ok [] := by
  decide

/-- C12 (amended): `ParseHexHash(s)` succeeds exactly when `s` is empty or is 64 hex digits,
of either case; it then returns the decoded bytes, half as many as there are digits, each
byte from its two digits; it fails exactly when `s` is neither. -/
theorem ParseHexHash_succeeds_iff (s : GoString) :
    ((∃ bz, ParseHexHash s = .ok bz) ↔
      s = [] ∨ (s.length = 64 ∧ ∀ c ∈ s, (fromHexChar c).isSome = true)) ∧
    (∀ bz, ParseHexHash s = .ok bz →
      s.length = 2 * bz.length ∧ s.map fromHexChar = (bz.flatMap nibbles).map some) ∧
    ((∃ e, ParseHexHash s = .error e) ↔
      ¬ (s = [] ∨ (s.length = 64 ∧ ∀ c ∈ s, (fromHexChar c).isSome = true))) := by
  refine ⟨ParseHexHash_accepts_iff s, ?_, ?_⟩
  · intro bz h
    have hd := ((ParseHexHash_eq_ok_iff s bz).mp h).1
    exact ⟨hexDecodeString_length s bz hd, (hexDecodeString_ok_iff s bz).mp hd⟩
  · rw [← ParseHexHash_accepts_iff]
    constructor
    · rintro ⟨e, he⟩ ⟨bz, hbz⟩
      rw [he] at hbz
      cases hbz
    · intro hno
      rcases ParseHexHash_ok_or_error s with h | h
      · exact absurd h hno
      · exact h

/-- C13: `RemoveClassPrefix` undoes `GetClassPrefix`.  For all strings,
`RemoveClassPrefix(portID, channelID, GetClassPrefix(portID, channelID) + rest)` returns
`rest`, without a slice out of range, where the prefix is `portID + "/" + channelID + "/"`.
The example of the spec is included. -/
theorem RemoveClassPrefix_GetClassPrefix (portID channelID rest : GoString) :
    RemoveClassPrefix portID channelID (GetClassPrefix portID channelID ++ rest) = some rest ∧
    GetClassPrefix portID channelID = portID ++ [slash] ++ channelID ++ [slash] ∧
    RemoveClassPrefix (str "port-1") (str "channel-1") (str "port-1/channel-1/class-1")
      = some (str "class-1") := by
  refine ⟨?_, rfl, by decide⟩
  simp only [RemoveClassPrefix]
  exact sliceFrom_append _ rest

/-- C14 (as stated, refuted): `RemoveClassPrefix` has no error to return.  A class id with
another prefix of the same length loses that prefix without a word, and a class id shorter
than the prefix is a slice out of range. -/
theorem RemoveClassPrefix_unchecked_counterexample :
    HasPrefix (str "port-2/channel-7/class-1")
        (GetClassPrefix (str "port-1") (str "channel-1")) = false ∧
    RemoveClassPrefix (str "port-1") (str "channel-1") (str "port-2/channel-7/class-1")
      = some (str "class-1") ∧
    HasPrefix (str "class-1") (GetClassPrefix (str "port-1") (str "channel-1")) = false ∧
    RemoveClassPrefix (str "port-1") (str "channel-1") (str "class-1") = none := by
  decide

/-- C14 (amended): `RemoveClassPrefix` does not test the prefix and returns no error.  For
every class id at least as long as `GetClassPrefix(portID, channelID)` it returns the class
id without its first `len(prefix)` bytes, whether or not these bytes are the prefix. -/
theorem RemoveClassPrefix_slices (portID channelID classID : GoString)
    (hlen : (GetClassPrefix portID channelID).length ≤ classID.length) :
    RemoveClassPrefix portID channelID classID
      = some (classID.drop (GetClassPrefix portID channelID).length) ∧
    classID = classID.take (GetClassPrefix portID channelID).length
      ++ classID.drop (GetClassPrefix portID channelID).length := by
  refine ⟨?_, (List.take_append_drop _ _).symm⟩
  simp only [RemoveClassPrefix, sliceFrom, if_pos hlen]

/-- The amended C14 at a class id with another prefix of the same length. -/
theorem RemoveClassPrefix_slices_witness :
    HasPrefix (str "port-2/channel-7/class-1")
        (GetClassPrefix (str "port-1") (str "channel-1")) = false ∧
    RemoveClassPrefix (str "port-1") (str "channel-1") (str "port-2/channel-7/class-1")
      = some (str "class-1") :=
  ⟨by decide,
    (RemoveClassPrefix_slices (str "port-1") (str "channel-1") (str "port-2/channel-7/class-1")
      (by decide)).1.trans (by decide)⟩

/-- C15: `IsAwayFromOrigin` is the negated prefix test.  It always returns, with the
negation of `HasPrefix(fullClassPath, prefix)`, so the second comparison never changes the
result; and it returns `false` exactly when the full class path starts with
`sourcePort + "/" + sourceChannel + "/"`.  The two examples of the spec are included. -/
theorem IsAwayFromOrigin_iff (sourcePort sourceChannel fullClassPath : GoString) :
    IsAwayFromOrigin sourcePort sourceChannel fullClassPath
      = some (!HasPrefix fullClassPath (GetClassPrefix sourcePort sourceChannel)) ∧
    (IsAwayFromOrigin sourcePort sourceChannel fullClassPath = some false ↔
      ∃ rest, fullClassPath = sourcePort ++ [slash] ++ sourceChannel ++ [slash] ++ rest) ∧
    IsAwayFromOrigin (str "port-1") (str "channel-1") (str "port-1/channel-1/class-1")
      = some false ∧
    IsAwayFromOrigin (str "port-1") (str "channel-1") (str "port-2/channel-7/class-1")
      = some true := by
  have hmain : IsAwayFromOrigin sourcePort sourceChannel fullClassPath
      = some (!HasPrefix fullClassPath (GetClassPrefix sourcePort sourceChannel)) := by
    cases hp : HasPrefix fullClassPath (GetClassPrefix sourcePort sourceChannel) with
    | false =>
      simp only [IsAwayFromOrigin, hp]
      rfl
    | true =>
      obtain ⟨rest, e⟩ := (HasPrefix_iff _ _).mp hp
      have hs : sliceTo fullClassPath (GetClassPrefix sourcePort sourceChannel).length
          = some (GetClassPrefix sourcePort sourceChannel) := by
        rw [e]
        simp [sliceTo]
      simp only [IsAwayFromOrigin, hp, hs]
      simp
  refine ⟨hmain, ?_, by decide, by decide⟩
  rw [hmain, ← HasPrefix_iff fullClassPath (sourcePort ++ [slash] ++ sourceChannel ++ [slash])]
  simp [GetClassPrefix]

/-- C16 (as stated, refuted): the path parsed from `a//b` is `a/`, and the path parsed from
`//` is `/`: both end with `/`. -/
theorem ParseClassTrace_trailing_slash_counterexample :
    ParseClassTrace (str "a//b") = { Path := str "a/", BaseClassId := str "b" } ∧
    (ParseClassTrace (str "a//b")).Path.getLast? = some slash ∧
    (ParseClassTrace (str "//")).Path = str "/" := by
  decide

/-- C16 (amended): the path of `ParseClassTrace(raw)` ends with `/` exactly when the last
`/` of `raw` comes right after another `/`, that is when `raw` is `p + "//" + b` with no `/`
in `b`; so for every raw string in which no `/` follows a `/`, the parsed path has no
trailing `/`. -/
theorem ParseClassTrace_Path_trailing_iff (raw : GoString) :
    (ParseClassTrace raw).Path.getLast? = some slash ↔
      ∃ p b, raw = p ++ [slash, slash] ++ b ∧ slash ∉ b := by
  constructor
  · intro h
    by_cases hs : slash ∈ raw
    · obtain ⟨p0, b0, e, hb⟩ := exists_last_sep slash raw hs
      rw [e, ParseClassTrace_append p0 b0 hb] at h
      obtain ⟨p1, hp1⟩ := List.getLast?_eq_some_iff.mp h
      have hp0 : p0 = p1 ++ [slash] := hp1
      exact ⟨p1, b0, by simp [e, hp0], hb⟩
    · rw [ParseClassTrace_of_not_mem raw hs] at h
      simp at h
  · rintro ⟨p, b, e, hb⟩
    have e1 : raw = (p ++ [slash]) ++ slash :: b := by simp [e]
    rw [e1, ParseClassTrace_append _ b hb]
    simp

/-- C17: `ParseHexHash` does not tell the cases apart.  For every string `s`, on `s`, on
the upper-cased `s` and on the lower-cased `s` it either succeeds three times with the same
bytes or fails three times. -/
theorem ParseHexHash_case_insensitive (s : GoString) :
    (∃ bz, ParseHexHash s = .ok bz ∧ ParseHexHash (ToUpper s) = .ok bz ∧
      ParseHexHash (ToLower s) = .ok bz) ∨
    (∃ e eU eL, ParseHexHash s = .error e ∧ ParseHexHash (ToUpper s) = .error eU ∧
      ParseHexHash (ToLower s) = .error eL) := by
  rcases ParseHexHash_ok_or_error s with ⟨bz, h⟩ | ⟨e, h⟩
  · exact Or.inl ⟨bz, h, (ParseHexHash_map _ fromHexChar_toUpperByte s bz).mpr h,
      (ParseHexHash_map _ fromHexChar_toLowerByte s bz).mpr h⟩
  · right
    have hU : ∃ eU, ParseHexHash (ToUpper s) = .error eU := by
      rcases ParseHexHash_ok_or_error (ToUpper s) with ⟨bz, hb⟩ | hb
      · have := (ParseHexHash_map _ fromHexChar_toUpperByte s bz).mp hb
        rw [h] at this
        cases this
      · exact hb
    have hL : ∃ eL, ParseHexHash (ToLower s) = .error eL := by
      rcases ParseHexHash_ok_or_error (ToLower s) with ⟨bz, hb⟩ | hb
      · have := (ParseHexHash_map _ fromHexChar_toLowerByte s bz).mp hb
        rw [h] at this
        cases this
      · exact hb
    obtain ⟨eU, hU⟩ := hU
    obtain ⟨eL, hL⟩ := hL
    exact ⟨e, eU, eL, h, hU, hL⟩

/-- C18: the external id of a parsed trace.  For every raw string the parsed base class id
has no `/`, and the `IBCClassID` of the parsed trace either has no `/` or is
`ClassPrefix + "/"` followed by exactly 64 hex digits. -/
theorem ParseClassTrace_IBCClassID_format (H : Sha256) (raw : GoString) :
    slash ∉ (ParseClassTrace raw).BaseClassId ∧
    (slash ∉ (ParseClassTrace raw).IBCClassID H ∨
      ∃ hex, (ParseClassTrace raw).IBCClassID H = ClassPrefix ++ [slash] ++ hex ∧
        hex.length = 64 ∧ ∀ c ∈ hex, (fromHexChar c).isSome = true) := by
  refine ⟨ParseClassTrace_base_not_mem raw, ?_⟩
  by_cases hp : (ParseClassTrace raw).Path = []
  · left
    simp only [ClassTrace.IBCClassID, hp, ne_eq, not_true_eq_false, if_false]
    exact ParseClassTrace_base_not_mem raw
  · right
    refine ⟨HexBytes.Format ((ParseClassTrace raw).Hash H), ?_, ?_, HexBytes.Format_isHex _⟩
    · simp [ClassTrace.IBCClassID, hp]
    · rw [HexBytes.Format_length, ClassTrace.Hash, H.size]

/-- C19: a hashed class id resolves.  For every store and every trace `ct` with a path,
when the codec gives `ct` back from its bytes, `ClassPathFromHash(ct.IBCClassID())` right
after `SetClassTrace(ct)` returns the full class path of `ct` and no error; and
`ParseHexHash` accepts the hex text that `IBCClassID` writes and returns `ct.Hash()`. -/
theorem ClassPathFromHash_IBCClassID (k : Keeper) (H : Sha256) (st : Store) (ct : ClassTrace)
    (hpath : ct.Path ≠ [])
    (hrt : k.MustUnmarshalClassTrace (k.MustMarshalClassTrace ct) = some ct) :
    k.ClassPathFromHash (k.SetClassTrace H st ct) (ct.IBCClassID H)
      = some ((ct.GetFullClassPath, none), k.SetClassTrace H st ct) ∧
    ct.IBCClassID H = ClassPrefix ++ [slash] ++ HexBytes.Format (ct.Hash H) ∧
    ParseHexHash (HexBytes.Format (ct.Hash H)) = .ok (ct.Hash H) := by
  have hid : ct.IBCClassID H = ClassPrefix ++ [slash] ++ HexBytes.Format (ct.Hash H) := by
    simp [ClassTrace.IBCClassID, hpath]
  have hparse : ParseHexHash (HexBytes.Format (ct.Hash H)) = .ok (ct.Hash H) :=
    ParseHexHash_Format _ (H.size _)
  refine ⟨?_, hid, hparse⟩
  have hget := GetClassTrace_of_stored k (k.SetClassTrace H st ct) (ct.Hash H)
    (k.MustMarshalClassTrace ct) ct (by rw [SetClassTrace_apply, if_pos rfl]) hrt
  rw [hid]
  simp only [Keeper.ClassPathFromHash, sliceFrom_append, hparse, hget]
  rfl

/-- C19 at a voucher of one hop, with the example codec and hash, from the empty store. -/
theorem ClassPathFromHash_IBCClassID_witness :
    (demoKeeper.ClassPathFromHash
        (demoKeeper.SetClassTrace demoSha256 Store.empty
          { Path := str "p/c", BaseClassId := str "kitty" })
        (ClassTrace.IBCClassID demoSha256
          { Path := str "p/c", BaseClassId := str "kitty" })).map Prod.fst
      = some (str "p/c/kitty", none) :=
  have h := (ClassPathFromHash_IBCClassID demoKeeper demoSha256 Store.empty
    { Path := str "p/c", BaseClassId := str "kitty" } (by decide) (by decide)).1
  (congrArg (Option.map Prod.fst) h).trans (by decide)

/-- C20: formatting after parsing.  For every raw string,
`ParseClassTrace(raw).GetFullClassPath()` is `raw`, unless `raw` has exactly one `/` and
starts with it; then it is `raw` without that `/`. -/
theorem GetFullClassPath_ParseClassTrace (raw : GoString) :
    ((raw.count slash = 1 ∧ raw.head? = some slash) →
      (ParseClassTrace raw).GetFullClassPath = raw.drop 1) ∧
    (¬ (raw.count slash = 1 ∧ raw.head? = some slash) →
      (ParseClassTrace raw).GetFullClassPath = raw) := by
  constructor
  · rintro ⟨hc, hh⟩
    cases raw with
    | nil => simp at hh
    | cons c b =>
      simp only [List.head?_cons, Option.some.injEq] at hh
      subst hh
      have hb : slash ∉ b := by
        rw [List.count_cons_self] at hc
        exact List.count_eq_zero.mp (by omega)
      have := ParseClassTrace_append [] b hb
      simp only [List.nil_append] at this
      simp [this, ClassTrace.GetFullClassPath]
  · intro hno
    by_cases hs : slash ∈ raw
    · obtain ⟨p, b, e, hb⟩ := exists_last_sep slash raw hs
      subst e
      rw [ParseClassTrace_append p b hb]
      cases p with
      | nil =>
        exfalso
        apply hno
        simp [List.count_eq_zero.mpr hb]
      | cons c p1 => simp [ClassTrace.GetFullClassPath, ClassTrace.GetPrefix]
    · rw [ParseClassTrace_of_not_mem raw hs]
      simp [ClassTrace.GetFullClassPath]

/-- C20 at both kinds of raw string. -/
theorem GetFullClassPath_ParseClassTrace_witness :
    ClassTrace.GetFullClassPath (ParseClassTrace (str "/kitty")) = str "kitty" ∧
    ClassTrace.GetFullClassPath (ParseClassTrace (str "p/c/kitty")) = str "p/c/kitty" :=
  ⟨((GetFullClassPath_ParseClassTrace (str "/kitty")).1 (by decide)).trans (by decide),
    (GetFullClassPath_ParseClassTrace (str "p/c/kitty")).2 (by decide)⟩

end NftTransfer
